import Mathlib

/-!
Verification development for a Go program that uploads a local directory
tree to an object-storage bucket while obfuscating every directory segment
of the destination key with a truncated SHA-256 hash (src/main.go).

The embedding models machine words as `Nat` with explicit reduction
modulo 2^32 where the Go code works on `uint32`, bytes as `Nat` below 256,
and Go strings as Lean `String` (a structure over `List Char`).
-/

namespace SampleObfuscation

/-! ## SHA-256 (crypto/sha256), embedded over `Nat`

The Go code calls `sha256.Sum256` on the UTF-8 bytes of the segment.
The FIPS 180-4 algorithm is embedded here: 32-bit words are `Nat`
reduced modulo 4294967296 = 2^32. -/

/-- Right rotation of a 32-bit word. -/
def rotr (n x : Nat) : Nat := ((x >>> n) ||| (x <<< (32 - n))) % 4294967296

/-- Bitwise complement of a 32-bit word. -/
def compl32 (x : Nat) : Nat := x ^^^ 4294967295

def bigSigma0 (x : Nat) : Nat := rotr 2 x ^^^ rotr 13 x ^^^ rotr 22 x

def bigSigma1 (x : Nat) : Nat := rotr 6 x ^^^ rotr 11 x ^^^ rotr 25 x

def smallSigma0 (x : Nat) : Nat := rotr 7 x ^^^ rotr 18 x ^^^ (x >>> 3)

def smallSigma1 (x : Nat) : Nat := rotr 17 x ^^^ rotr 19 x ^^^ (x >>> 10)

def shaCh (x y z : Nat) : Nat := (x &&& y) ^^^ (compl32 x &&& z)

def shaMaj (x y z : Nat) : Nat := (x &&& y) ^^^ (x &&& z) ^^^ (y &&& z)

/-- The 64 SHA-256 round constants of FIPS 180-4, written in decimal. -/
def K : List Nat :=
  [1116352408, 1899447441, 3049323471, 3921009573, 961987163, 1508970993,
   2453635748, 2870763221, 3624381080, 310598401, 607225278, 1426881987,
   1925078388, 2162078206, 2614888103, 3248222580, 3835390401, 4022224774,
   264347078, 604807628, 770255983, 1249150122, 1555081692, 1996064986,
   2554220882, 2821834349, 2952996808, 3210313671, 3336571891, 3584528711,
   113926993, 338241895, 666307205, 773529912, 1294757372, 1396182291,
   1695183700, 1986661051, 2177026350, 2456956037, 2730485921, 2820302411,
   3259730800, 3345764771, 3516065817, 3600352804, 4094571909, 275423344,
   430227734, 506948616, 659060556, 883997877, 958139571, 1322822218,
   1537002063, 1747873779, 1955562222, 2024104815, 2227730452, 2361852424,
   2428436474, 2756734187, 3204031479, 3329325298]

/-- Hash state: the eight 32-bit working variables. -/
structure Hs where
  a : Nat
  b : Nat
  c : Nat
  d : Nat
  e : Nat
  f : Nat
  g : Nat
  h : Nat

/-- Initial SHA-256 hash value of FIPS 180-4, written in decimal. -/
def initH : Hs :=
  ⟨1779033703, 3144134277, 1013904242, 2773480762,
   1359893119, 2600822924, 528734635, 1541459225⟩

/-- Big-endian 64-bit encoding of a message bit length. -/
def be64 (n : Nat) : List Nat :=
  [n >>> 56 % 256, n >>> 48 % 256, n >>> 40 % 256, n >>> 32 % 256,
   n >>> 24 % 256, n >>> 16 % 256, n >>> 8 % 256, n % 256]

/-- SHA-256 padding: append 0x80, zeros, and the 64-bit big-endian bit
length so the total is a multiple of 64 bytes. -/
def padMessage (msg : List Nat) : List Nat :=
  msg ++ 128 :: List.replicate ((119 - msg.length % 64) % 64) 0 ++ be64 (8 * msg.length)

/-- Split a byte list into 64-byte blocks, driven by a structural fuel so
that the definition reduces in the kernel. -/
def toBlocksFuel : Nat → List Nat → List (List Nat)
  | 0, _ => []
  | _ + 1, [] => []
  | k + 1, c :: rest => (c :: rest).take 64 :: toBlocksFuel k ((c :: rest).drop 64)

def toBlocks (l : List Nat) : List (List Nat) := toBlocksFuel l.length l

/-- Combine bytes into big-endian 32-bit words. -/
def bytesToWords : List Nat → List Nat
  | b0 :: b1 :: b2 :: b3 :: rest =>
      (b0 * 16777216 + b1 * 65536 + b2 * 256 + b3) :: bytesToWords rest
  | _ => []

/-- Extend the 16 message words to 64; the window holds the most recent 16
words, newest first. -/
def extendSchedule : Nat → List Nat → List Nat → List Nat
  | 0, _, acc => acc.reverse
  | k + 1, window, acc =>
      let next := (smallSigma1 (window.getD 1 0) + window.getD 6 0 +
                   smallSigma0 (window.getD 14 0) + window.getD 15 0) % 4294967296
      extendSchedule k (next :: window.take 15) (next :: acc)

def schedule (w16 : List Nat) : List Nat := w16 ++ extendSchedule 48 w16.reverse []

/-- One SHA-256 round. -/
def sha256Round (s : Hs) (kw : Nat × Nat) : Hs :=
  let t1 := (s.h + bigSigma1 s.e + shaCh s.e s.f s.g + kw.1 + kw.2) % 4294967296
  let t2 := (bigSigma0 s.a + shaMaj s.a s.b s.c) % 4294967296
  ⟨(t1 + t2) % 4294967296, s.a, s.b, s.c, (s.d + t1) % 4294967296, s.e, s.f, s.g⟩

/-- Compress one 64-byte block into the hash state. -/
def compressBlock (st : Hs) (block : List Nat) : Hs :=
  let w := schedule (bytesToWords block)
  let t := (K.zip w).foldl sha256Round st
  ⟨(st.a + t.a) % 4294967296, (st.b + t.b) % 4294967296,
   (st.c + t.c) % 4294967296, (st.d + t.d) % 4294967296,
   (st.e + t.e) % 4294967296, (st.f + t.f) % 4294967296,
   (st.g + t.g) % 4294967296, (st.h + t.h) % 4294967296⟩

/-- Serialize one 32-bit word to four big-endian bytes. -/
def word2bytes (w : Nat) : List Nat := [w >>> 24 % 256, w >>> 16 % 256, w >>> 8 % 256, w % 256]

/-- SHA-256 digest (32 bytes) of a byte message: `sha256.Sum256`. -/
def sha256Bytes (msg : List Nat) : List Nat :=
  let st := (toBlocks (padMessage msg)).foldl compressBlock initH
  word2bytes st.a ++ word2bytes st.b ++ word2bytes st.c ++ word2bytes st.d ++
  word2bytes st.e ++ word2bytes st.f ++ word2bytes st.g ++ word2bytes st.h

/-- UTF-8 encoding of one Unicode scalar value, as Go produces for
each rune when converting a string to a byte slice. -/
def utf8Bytes (c : Nat) : List Nat :=
  if c < 128 then [c]
  else if c < 2048 then [192 ||| (c >>> 6), 128 ||| (c &&& 63)]
  else if c < 65536 then
    [224 ||| (c >>> 12), 128 ||| ((c >>> 6) &&& 63), 128 ||| (c &&& 63)]
  else
    [240 ||| (c >>> 18), 128 ||| ((c >>> 12) &&& 63),
     128 ||| ((c >>> 6) &&& 63), 128 ||| (c &&& 63)]

/-- The UTF-8 bytes of a string: the Go conversion `[]byte(s)`. -/
def strBytes (s : String) : List Nat := s.data.foldr (fun c acc => utf8Bytes c.toNat ++ acc) []

/-- Lowercase hexadecimal digit, as indexed in Go's
`encoding/hex` table "0123456789abcdef". -/
def hexDigit (n : Nat) : Char := if n < 10 then Char.ofNat (48 + n) else Char.ofNat (87 + n)

/-- Lowercase hexadecimal encoding of a byte list, two characters per
byte: `hex.EncodeToString`. -/
def hexEncode : List Nat → List Char
  | [] => []
  | b :: bs => hexDigit (b >>> 4) :: hexDigit (b &&& 15) :: hexEncode bs

/-- HashFolderName (src/main.go lines 19-22): SHA-256 the UTF-8 bytes of
the folder name, hex-encode the digest, and keep the first 16 characters
(the Go slice `[:16]` of an ASCII hex string is its first 16 characters). -/
def HashFolderName (folderName : String) : String :=
  ⟨(hexEncode (sha256Bytes (strBytes folderName))).take 16⟩

/-! ## Path-string primitives

Go's `strings.Split`/`strings.Join` with the `/` separator
(`os.PathSeparator` on Linux), and the lexical path functions
`Clean`, `Base`, `Dir`, `Rel`, `Join` from `path/filepath`. -/

/-- Split a character list at every `/`: `strings.Split(s, "/")` at the
character level. Splitting the empty string yields one empty chunk. -/
def splitChars : List Char → List (List Char)
  | [] => [[]]
  | c :: rest =>
      if c = '/' then [] :: splitChars rest
      else
        match splitChars rest with
        | [] => [[c]]
        | g :: gs => (c :: g) :: gs

/-- Join character chunks with `/` between them. -/
def joinChars : List (List Char) → List Char
  | [] => []
  | [s] => s
  | s :: ss => s ++ '/' :: joinChars ss

/-- `strings.Split(s, "/")` (Go splits on each occurrence of the
one-byte separator). -/
def goSplit (s : String) : List String := (splitChars s.data).map fun cs => ⟨cs⟩

/-- `strings.Join(ss, "/")`. -/
def goJoin : List String → String
  | [] => ""
  | [s] => s
  | s :: ss => s ++ "/" ++ goJoin ss

/-- ObfuscatePath (src/main.go lines 25-34): split the path on the
platform separator (`/` on Linux), hash every part with HashFolderName,
and join the hashed parts with `/`. -/
def ObfuscatePath (originalPath : String) : String :=
  goJoin ((goSplit originalPath).map HashFolderName)

/-- The chunk-processing core of `filepath.Clean` (lexical processing in
the Go source scans the path between separators; the chunks it scans are
exactly the `/`-separated chunks): empty and `.` chunks are dropped, a
`..` chunk removes the previous output element when one is available
past the `..` barrier `ndd`, is dropped when rooted, and is kept
otherwise; any other chunk is appended.  The accumulator holds the
output elements in reverse. -/
def cleanSegs (rooted : Bool) : List (List Char) → List (List Char) → Nat → List (List Char)
  | [], acc, _ => acc.reverse
  | seg :: rest, acc, ndd =>
      if seg = [] ∨ seg = ['.'] then cleanSegs rooted rest acc ndd
      else if seg = ['.', '.'] then
        if acc.length > ndd then cleanSegs rooted rest acc.tail ndd
        else if rooted then cleanSegs rooted rest acc ndd
        else cleanSegs rooted rest (['.', '.'] :: acc) (acc.length + 1)
      else cleanSegs rooted rest (seg :: acc) ndd

/-- `filepath.Clean` on Linux (no volume names): the empty path cleans
to `.`; a rooted result keeps its leading `/`; an empty unrooted result
is `.`. -/
def goClean (path : String) : String :=
  if path = "" then "."
  else
    let cs := path.data
    if cs.head? = some '/' then
      ⟨'/' :: joinChars (cleanSegs true (splitChars cs) [] 0)⟩
    else
      let segs := cleanSegs false (splitChars cs) [] 0
      if segs = [] then "." else ⟨joinChars segs⟩

/-- `filepath.Base` on Linux: empty path gives `.`; trailing separators
are stripped; the part after the last separator is returned, or `/` if
nothing remains. -/
def goBase (path : String) : String :=
  if path = "" then "."
  else
    let stripped := (path.data.reverse.dropWhile fun c => c = '/').reverse
    let lastSeg := (stripped.reverse.takeWhile fun c => c ≠ '/').reverse
    if lastSeg = [] then "/" else ⟨lastSeg⟩

/-- `filepath.Dir` on Linux: drop everything after the last separator
(keeping the separator) and `Clean` the remainder. -/
def goDir (path : String) : String :=
  goClean ⟨(path.data.reverse.dropWhile fun c => c ≠ '/').reverse⟩

/-- Does the path start with the separator (`len(p) > 0 && p[0] == '/'`)? -/
def slashed (s : String) : Bool := s.data.head? == some '/'

/-- The chunk-matching loop of `filepath.Rel`: advance over equal
`/`-separated chunks of base and targ; when one side is exhausted its
current chunk reads as empty and still matches an empty chunk on the
other side.  Returns the unmatched remainders. -/
def dropCommon : List String → List String → List String × List String
  | bs, [] => (dropEmptyChunks bs, [])
  | [], t :: ts => if t = "" then dropCommon [] ts else ([], t :: ts)
  | b :: bs, t :: ts => if b = t then dropCommon bs ts else (b :: bs, t :: ts)
where
  /-- Consume leading empty chunks of the remaining base once targ is
  exhausted, as the index loop does. -/
  dropEmptyChunks : List String → List String
    | [] => []
    | b :: bs => if b = "" then dropEmptyChunks bs else b :: bs

/-- `filepath.Rel(basepath, targpath)` on Linux, returning the Go pair
(result string, error): both paths are cleaned; equal paths give `.`;
a `.` base becomes empty; mixing rooted and unrooted paths is an error
(the error text stands in for the Go message, with "cannot" written for
the contraction in the original wording);
after dropping the common chunk prefix, a leading `..` in the remaining
base is an error; remaining base elements each contribute a `..`. -/
def goRel (basepath targpath : String) : String × Option String :=
  let base := goClean basepath
  let targ := goClean targpath
  if targ = base then (".", none)
  else
    let base := if base = "." then "" else base
    if slashed base ≠ slashed targ then
      ("", some ("Rel: cannot make " ++ targpath ++ " relative to " ++ basepath))
    else
      let p := dropCommon (goSplit base) (goSplit targ)
      if p.1.headD "" = ".." then
        ("", some ("Rel: cannot make " ++ targpath ++ " relative to " ++ basepath))
      else if goJoin p.1 ≠ "" then
        let ups := goJoin (List.replicate p.1.length "..")
        (if goJoin p.2 ≠ "" then ups ++ "/" ++ goJoin p.2 else ups, none)
      else (goJoin p.2, none)

/-- `filepath.Join(a, b)` on Linux: empty elements are skipped and the
joined string is cleaned. -/
def goJoinPath (a b : String) : String :=
  if a = "" ∧ b = "" then ""
  else if a = "" then goClean b
  else if b = "" then goClean a
  else goClean (a ++ "/" ++ b)

/-! ## UploadFile's object key and the walk's progress line -/

/-- The object key computed by UploadFile (src/main.go lines 48-55):
the base name of the file, the relative path of the file with respect to
the original folder (the error from `filepath.Rel` is discarded, leaving
the empty string as relative path on failure), the obfuscation of the
directory portion of that relative path, and the key
`obfuscatedFolderPath ++ "/" ++ fileName`. -/
def UploadFileKey (originalFolder filePath : String) : String :=
  let fileName := goBase filePath
  let relativePath := (goRel originalFolder filePath).1
  let obfuscatedFolderPath := ObfuscatePath (goDir relativePath)
  obfuscatedFolderPath ++ "/" ++ fileName

/-- The progress line printed by UploadFolder before each upload
(src/main.go line 87): `fmt.Println("Uploading:", path, "->",
ObfuscatePath(path))` joins its arguments with single spaces. -/
def progressLine (path : String) : String :=
  "Uploading: " ++ path ++ " -> " ++ ObfuscatePath path

/-! ## UploadFolder: `filepath.Walk` over a directory tree

The local file system is modelled as a rose tree whose directory
children are listed in the lexical order in which `filepath.Walk`
enumerates them.  The upload backend is an abstract function from the
file's walk path to a result, and `stat` gives the abstract
`os.Lstat` outcome for a path (`none` = success).  Errors are strings,
matching Go's `error` values abstractly. -/

inductive FsNode where
  | file (name : String) : FsNode
  | dir (name : String) (children : List FsNode) : FsNode

def FsNode.name : FsNode → String
  | .file n => n
  | .dir n _ => n

mutual

/-- Walk a node as `filepath.Walk`'s recursive `walk` does with the walk
function of UploadFolder (src/main.go lines 76-89): the walk function
returns the error it is handed, skips directories, and otherwise prints
the progress line and uploads the file.  The result pairs the list of
file paths on which UploadFile was invoked, in encounter order, with the
propagated outcome. -/
def walkRun (u : String → Except String Unit) (stat : String → Option String) :
    String → FsNode → List String × Except String Unit
  | path, .file _ => ([path], u path)
  | path, .dir _ cs => walkRunList u stat path cs

/-- Walk the children of a directory in order: each child path is
`filepath.Join(dir, name)`; a failing `lstat` hands its error to the
walk function, which returns it and aborts; any error from a child's
walk aborts the remaining children. -/
def walkRunList (u : String → Except String Unit) (stat : String → Option String)
    (path : String) : List FsNode → List String × Except String Unit
  | [] => ([], .ok ())
  | c :: cs =>
      let p := goJoinPath path c.name
      match stat p with
      | some e => ([], .error e)
      | none =>
          match walkRun u stat p c with
          | (att, .error e) => (att, .error e)
          | (att, .ok _) =>
              let r := walkRunList u stat path cs
              (att ++ r.1, r.2)

end

mutual

/-- All regular-file paths under a node, in the walk's encounter order. -/
def walkFiles : String → FsNode → List String
  | path, .file _ => [path]
  | path, .dir _ cs => walkFilesList path cs

def walkFilesList (path : String) : List FsNode → List String
  | [] => []
  | c :: cs => walkFiles (goJoinPath path c.name) c ++ walkFilesList path cs

end

/-- UploadFolder (src/main.go lines 75-90): `filepath.Walk` first stats
the root; a stat failure is handed to the walk function (which returns
it); otherwise the tree is walked. -/
def UploadFolder (u : String → Except String Unit) (stat : String → Option String)
    (rootFolder : String) (tree : FsNode) : List String × Except String Unit :=
  match stat rootFolder with
  | some e => ([], .error e)
  | none => walkRun u stat rootFolder tree

/-- Reference fold for a flat list of files: attempt each upload in
order, stopping at the first error. -/
def runUploads (u : String → Except String Unit) : List String → List String × Except String Unit
  | [] => ([], .ok ())
  | f :: fs =>
      match u f with
      | .error e => ([f], .error e)
      | .ok _ =>
          let r := runUploads u fs
          (f :: r.1, r.2)

/-! ## Bootstrap: `main`, godotenv and the environment

The process environment is an association list; `os.Getenv` returns the
empty string for unset variables.  `godotenv.Load` with no arguments
reads `.env`: a missing file is an error, and a present file sets only
the variables that are not already set (it never overrides). -/

/-- `os.Getenv`. -/
def getenv (env : List (String × String)) (k : String) : String :=
  (((env.find? fun p => p.1 = k).map Prod.snd).getD "")

/-- Modelled from the spec: the effect of `godotenv.Load` applying the
key/value pairs of a present `.env` file to the environment, where
"environment variables otherwise take precedence per the loader's
semantics", i.e. a variable already present in the environment is not
overridden by the file. -/
def dotenvApply (env : List (String × String)) (kvs : List (String × String)) :
    List (String × String) :=
  kvs.foldl (fun e kv => if (e.find? fun p => p.1 = kv.1).isSome then e else e ++ [kv]) env

/-- Outcome of a `main` run: a `log.Fatal` with its message (non-zero
exit), or the success message printed before a zero exit. -/
inductive MainResult where
  | fatal (msg : String) : MainResult
  | success (msg : String) : MainResult
deriving DecidableEq

/-- main (src/main.go lines 92-121).  `envFile` is the `.env` content
(`none` when the file is missing), `env` the process environment, `args`
the full `os.Args` (program name first), and `runUpload` abstracts
`UploadFolder bucket region folder`. -/
def mainModel (envFile : Option (List (String × String))) (env : List (String × String))
    (args : List String) (runUpload : String → String → String → Except String Unit) :
    MainResult :=
  match envFile with
  | none => .fatal "Error loading .env file"
  | some kvs =>
      let env := dotenvApply env kvs
      let bucketName := getenv env "S3_BUCKET_NAME"
      let region := getenv env "AWS_REGION"
      if bucketName = "" ∨ region = "" then
        .fatal "Error: S3_BUCKET_NAME and AWS_REGION must be set in the .env file"
      else
        match args with
        | _ :: folderPath :: _ =>
            match runUpload bucketName region folderPath with
            | .error e => .fatal ("Upload failed:" ++ e)
            | .ok _ => .success "All files uploaded successfully!"
        | _ => .fatal "Usage: go run main.go <folder-path>"

deriving instance DecidableEq for Except

/-! ## Properties of the hash -/

/-- Membership in the lowercase hexadecimal alphabet
"0123456789abcdef". -/
def isLowerHexChar (c : Char) : Prop := ('0' ≤ c ∧ c ≤ '9') ∨ ('a' ≤ c ∧ c ≤ 'f')

instance (c : Char) : Decidable (isLowerHexChar c) := by
  unfold isLowerHexChar; infer_instance

theorem sha256Bytes_length (m : List Nat) : (sha256Bytes m).length = 32 := by
  simp [sha256Bytes, word2bytes]

theorem sha256Bytes_lt (m : List Nat) : ∀ b ∈ sha256Bytes m, b < 256 := by
  intro b hb
  simp only [sha256Bytes, word2bytes, List.mem_append, List.mem_cons,
    List.not_mem_nil, or_false] at hb
  omega

theorem hexEncode_length (bs : List Nat) : (hexEncode bs).length = 2 * bs.length := by
  induction bs with
  | nil => simp [hexEncode]
  | cons b bs ih => simp [hexEncode, ih]; omega

theorem hexDigit_lowerHex {n : Nat} (h : n < 16) : isLowerHexChar (hexDigit n) := by
  have : ∀ m : Fin 16, isLowerHexChar (hexDigit m.val) := by decide
  exact this ⟨n, h⟩

theorem hexEncode_chars {bs : List Nat} (hbs : ∀ b ∈ bs, b < 256) :
    ∀ c ∈ hexEncode bs, isLowerHexChar c := by
  induction bs with
  | nil => simp [hexEncode]
  | cons b bs ih =>
      intro c hc
      have hb : b < 256 := hbs b (by simp)
      simp only [hexEncode, List.mem_cons] at hc
      rcases hc with h | h | h
      · subst h
        apply hexDigit_lowerHex
        rw [Nat.shiftRight_eq_div_pow]
        exact (Nat.div_lt_iff_lt_mul (by omega)).mpr (by omega)
      · subst h
        exact hexDigit_lowerHex (Nat.lt_of_le_of_lt Nat.and_le_right (by omega))
      · exact ih (fun x hx => hbs x (by simp [hx])) c h

theorem HashFolderName_length (s : String) : (HashFolderName s).length = 16 := by
  show ((hexEncode (sha256Bytes (strBytes s))).take 16).length = 16
  rw [List.length_take, hexEncode_length, sha256Bytes_length]
  omega

theorem HashFolderName_chars (s : String) :
    ∀ c ∈ (HashFolderName s).data, isLowerHexChar c := by
  intro c hc
  have : c ∈ hexEncode (sha256Bytes (strBytes s)) :=
    List.take_subset 16 _ hc
  exact hexEncode_chars (sha256Bytes_lt (strBytes s)) c this

theorem lowerHex_ne_slash {c : Char} (h : isLowerHexChar c) : c ≠ '/' := by
  intro he; subst he; revert h; decide

theorem HashFolderName_no_slash (s : String) : '/' ∉ (HashFolderName s).data := by
  intro h
  exact lowerHex_ne_slash (HashFolderName_chars s '/' h) rfl

theorem HashFolderName_ne_empty (s : String) : HashFolderName s ≠ "" := by
  intro h
  have := HashFolderName_length s
  rw [h] at this
  simp at this

/-! ## Split and join -/

theorem splitChars_ne_nil (cs : List Char) : splitChars cs ≠ [] := by
  induction cs with
  | nil => simp [splitChars]
  | cons c rest ih =>
      simp only [splitChars]
      split
      · simp
      · match h : splitChars rest with
        | [] => simp
        | g :: gs => simp

theorem splitChars_noSlash {cs : List Char} (h : '/' ∉ cs) : splitChars cs = [cs] := by
  induction cs with
  | nil => rfl
  | cons c rest ih =>
      have hc : ¬ c = '/' := fun he => h (by simp [he])
      have hr : '/' ∉ rest := fun hm => h (by simp [hm])
      simp only [splitChars, if_neg hc, ih hr]

theorem splitChars_append_slash {g : List Char} (h : '/' ∉ g) (cs : List Char) :
    splitChars (g ++ '/' :: cs) = g :: splitChars cs := by
  induction g with
  | nil => simp [splitChars]
  | cons c rest ih =>
      have hc : ¬ c = '/' := fun he => h (by simp [he])
      have hr : '/' ∉ rest := fun hm => h (by simp [hm])
      simp only [List.cons_append, splitChars, if_neg hc, List.append_eq, ih hr]

theorem splitChars_joinChars {gs : List (List Char)} (hne : gs ≠ [])
    (hns : ∀ g ∈ gs, '/' ∉ g) : splitChars (joinChars gs) = gs := by
  induction gs with
  | nil => exact absurd rfl hne
  | cons g gs ih =>
      match gs with
      | [] => exact splitChars_noSlash (hns g (by simp))
      | g' :: gs' =>
          have h1 : '/' ∉ g := hns g (by simp)
          show splitChars (g ++ '/' :: joinChars (g' :: gs')) = _
          rw [splitChars_append_slash h1,
            ih (by simp) (fun x hx => hns x (by simp [hx]))]

theorem splitChars_append_last_slash (cs : List Char) :
    splitChars (cs ++ ['/']) = splitChars cs ++ [[]] := by
  induction cs with
  | nil => rfl
  | cons c rest ih =>
      simp only [List.cons_append, splitChars, List.append_eq, ih]
      split
      · rfl
      · have hne := splitChars_ne_nil rest
        match h : splitChars rest with
        | [] => exact absurd h hne
        | g :: gs => simp [h]

theorem goJoin_data (ss : List String) :
    (goJoin ss).data = joinChars (ss.map String.data) := by
  induction ss with
  | nil => rfl
  | cons s ss ih =>
      match ss with
      | [] => rfl
      | s' :: ss' =>
          show (s ++ "/" ++ goJoin (s' :: ss')).data = s.data ++ '/' :: joinChars _
          rw [String.data_append, String.data_append, ih]
          simp

theorem string_mk_data (s : String) : (⟨s.data⟩ : String) = s := by cases s; rfl

theorem goSplit_goJoin {ss : List String} (hne : ss ≠ [])
    (hns : ∀ s ∈ ss, '/' ∉ s.data) : goSplit (goJoin ss) = ss := by
  unfold goSplit
  rw [goJoin_data, splitChars_joinChars (by simpa using hne)
    (by intro g hg; simp only [List.mem_map] at hg; obtain ⟨s, hs, rfl⟩ := hg; exact hns s hs)]
  rw [List.map_map]
  have : (fun cs => (⟨cs⟩ : String)) ∘ String.data = id := by
    funext s; exact string_mk_data s
  rw [this, List.map_id]

theorem goSplit_ne_nil (s : String) : goSplit s ≠ [] := by
  unfold goSplit
  simpa using splitChars_ne_nil s.data

theorem goJoin_append {as bs : List String} (ha : as ≠ []) (hb : bs ≠ []) :
    goJoin (as ++ bs) = goJoin as ++ "/" ++ goJoin bs := by
  induction as with
  | nil => exact absurd rfl ha
  | cons a as ih =>
      match as with
      | [] =>
          match bs with
          | [] => exact absurd rfl hb
          | b :: bs' => rfl
      | a' :: as' =>
          show a ++ "/" ++ goJoin (a' :: as' ++ bs) = (a ++ "/" ++ goJoin (a' :: as')) ++ "/" ++ _
          rw [ih (by simp)]
          simp [String.append_assoc]

theorem ObfuscatePath_goJoin {ss : List String} (hne : ss ≠ [])
    (hns : ∀ s ∈ ss, '/' ∉ s.data) :
    ObfuscatePath (goJoin ss) = goJoin (ss.map HashFolderName) := by
  unfold ObfuscatePath
  rw [goSplit_goJoin hne hns]

theorem goSplit_ObfuscatePath (p : String) :
    goSplit (ObfuscatePath p) = (goSplit p).map HashFolderName := by
  unfold ObfuscatePath
  rw [goSplit_goJoin]
  · intro h
    have := goSplit_ne_nil p
    simp only [List.map_eq_nil_iff] at h
    exact this h
  · intro s hs
    simp only [List.mem_map] at hs
    obtain ⟨x, _, rfl⟩ := hs
    exact HashFolderName_no_slash x

/-! ## Lexical path functions on canonical paths

A simple segment is a plain directory or file name: nonempty, without
separators, and not one of the special names `.` and `..`.  Paths built
from simple segments are fixed by `Clean`, which lets `Rel`, `Dir` and
`Base` be computed segment-wise. -/

def SimpleSeg (s : String) : Prop :=
  s ≠ "" ∧ '/' ∉ s.data ∧ s ≠ "." ∧ s ≠ ".."

instance (s : String) : Decidable (SimpleSeg s) := by
  unfold SimpleSeg; infer_instance

theorem simple_data {s : String} (h : SimpleSeg s) :
    s.data ≠ [] ∧ s.data ≠ ['.'] ∧ s.data ≠ ['.', '.'] := by
  obtain ⟨h1, _, h3, h4⟩ := h
  refine ⟨fun he => h1 ?_, fun he => h3 ?_, fun he => h4 ?_⟩ <;>
    rw [← string_mk_data s, he]

theorem cleanSegs_plain {segs : List (List Char)}
    (hp : ∀ g ∈ segs, g ≠ [] ∧ g ≠ ['.'] ∧ g ≠ ['.', '.']) (rooted : Bool)
    (rest acc : List (List Char)) (ndd : Nat) :
    cleanSegs rooted (segs ++ rest) acc ndd =
      cleanSegs rooted rest (segs.reverse ++ acc) ndd := by
  induction segs generalizing acc ndd with
  | nil => simp
  | cons g gs ih =>
      obtain ⟨hg1, hg2, hg3⟩ := hp g (by simp)
      show cleanSegs rooted (g :: (gs ++ rest)) acc ndd = _
      rw [cleanSegs, if_neg (by simp [hg1, hg2]), if_neg hg3,
        ih (fun x hx => hp x (by simp [hx]))]
      simp

theorem joinChars_head? {g : List Char} (hg : g ≠ []) (gs : List (List Char)) :
    (joinChars (g :: gs)).head? = g.head? := by
  match gs with
  | [] => rfl
  | g' :: gs' =>
      show (g ++ '/' :: joinChars (g' :: gs')).head? = _
      rw [List.head?_append]
      match g, hg with
      | c :: t, _ => rfl

theorem goJoin_data_head? {ss : List String} (hne : ss ≠ [])
    (hs : ∀ s ∈ ss, SimpleSeg s) :
    ∃ c, (goJoin ss).data.head? = some c ∧ c ≠ '/' := by
  match ss with
  | s :: t =>
      have h1 : s.data ≠ [] := (simple_data (hs s (by simp))).1
      have h2 : '/' ∉ s.data := (hs s (by simp)).2.1
      obtain ⟨c, cs, hcs⟩ := List.exists_cons_of_ne_nil h1
      refine ⟨c, ?_, fun he => h2 (by rw [hcs, he]; simp)⟩
      rw [goJoin_data]
      show (joinChars (s.data :: t.map String.data)).head? = some c
      rw [joinChars_head? h1, hcs]
      rfl

theorem goJoin_ne_empty {ss : List String} (hne : ss ≠ [])
    (hs : ∀ s ∈ ss, SimpleSeg s) : goJoin ss ≠ "" := by
  obtain ⟨c, hc, _⟩ := goJoin_data_head? hne hs
  intro he
  rw [he] at hc
  simp at hc

theorem cleanSegs_nil (rooted : Bool) (acc : List (List Char)) (ndd : Nat) :
    cleanSegs rooted [] acc ndd = acc.reverse := rfl

theorem cleanSegs_empty_single (rooted : Bool) (acc : List (List Char)) (ndd : Nat) :
    cleanSegs rooted [[]] acc ndd = acc.reverse := by
  simp [cleanSegs]

theorem mapData_plain {ss : List String} (hs : ∀ s ∈ ss, SimpleSeg s) :
    ∀ g ∈ ss.map String.data, g ≠ [] ∧ g ≠ ['.'] ∧ g ≠ ['.', '.'] := by
  intro g hg
  obtain ⟨s, hsm, rfl⟩ := List.mem_map.mp hg
  exact simple_data (hs s hsm)

theorem mapData_noSlash {ss : List String} (hs : ∀ s ∈ ss, SimpleSeg s) :
    ∀ g ∈ ss.map String.data, '/' ∉ g := by
  intro g hg
  obtain ⟨s, hsm, rfl⟩ := List.mem_map.mp hg
  exact (hs s hsm).2.1

theorem goClean_goJoin {ss : List String} (hne : ss ≠ [])
    (hs : ∀ s ∈ ss, SimpleSeg s) : goClean (goJoin ss) = goJoin ss := by
  obtain ⟨c, hc, hcs⟩ := goJoin_data_head? hne hs
  have hmap : (ss.map String.data) ≠ [] := by simpa using hne
  have hsegs : cleanSegs false (splitChars (goJoin ss).data) [] 0 = ss.map String.data := by
    rw [goJoin_data, splitChars_joinChars hmap (mapData_noSlash hs),
      show ss.map String.data = ss.map String.data ++ [] by simp,
      cleanSegs_plain (mapData_plain hs) false [] [] 0, cleanSegs_nil]
    simp
  simp only [goClean]
  rw [if_neg (goJoin_ne_empty hne hs), if_neg (by rw [hc]; simp [hcs]), hsegs,
    if_neg hmap, ← goJoin_data, string_mk_data]

theorem goClean_goJoin_slash {ss : List String} (hne : ss ≠ [])
    (hs : ∀ s ∈ ss, SimpleSeg s) : goClean (goJoin ss ++ "/") = goJoin ss := by
  obtain ⟨c, hc, hcs⟩ := goJoin_data_head? hne hs
  have hmap : (ss.map String.data) ≠ [] := by simpa using hne
  have hdata : (goJoin ss ++ "/").data = (goJoin ss).data ++ ['/'] := by
    rw [String.data_append]
  have hne2 : goJoin ss ++ "/" ≠ "" := by
    intro he
    have hd := congrArg String.data he
    rw [hdata, show ("" : String).data = [] from rfl] at hd
    simp at hd
  have hhead : ¬ ((goJoin ss ++ "/").data.head? = some '/') := by
    rw [hdata, List.head?_append, hc]
    simp [hcs]
  have hsegs : cleanSegs false (splitChars (goJoin ss ++ "/").data) [] 0 =
      ss.map String.data := by
    rw [hdata, goJoin_data, splitChars_append_last_slash,
      splitChars_joinChars hmap (mapData_noSlash hs),
      cleanSegs_plain (mapData_plain hs) false [[]] [] 0, cleanSegs_empty_single]
    simp
  simp only [goClean]
  rw [if_neg hne2, if_neg hhead, hsegs, if_neg hmap, ← goJoin_data, string_mk_data]

theorem takeWhile_all {p : Char → Bool} {l : List Char} (h : ∀ a ∈ l, p a) :
    l.takeWhile p = l := by
  induction l with
  | nil => rfl
  | cons c t ih =>
      simp [List.takeWhile_cons, h c (by simp), ih fun a ha => h a (by simp [ha])]

theorem takeWhile_append_stop {p : Char → Bool} {l r : List Char} {c : Char}
    (hl : ∀ a ∈ l, p a) (hc : ¬ p c) : (l ++ c :: r).takeWhile p = l := by
  induction l with
  | nil => simp [List.takeWhile_cons, hc]
  | cons a t ih =>
      simp [List.takeWhile_cons, hl a (by simp), ih fun x hx => hl x (by simp [hx])]

theorem dropWhile_all {p : Char → Bool} {l : List Char} (h : ∀ a ∈ l, p a) :
    l.dropWhile p = [] := by
  induction l with
  | nil => rfl
  | cons c t ih =>
      simp [List.dropWhile_cons, h c (by simp), ih fun a ha => h a (by simp [ha])]

theorem dropWhile_append_stop {p : Char → Bool} {l r : List Char} {c : Char}
    (hl : ∀ a ∈ l, p a) (hc : ¬ p c) : (l ++ c :: r).dropWhile p = c :: r := by
  induction l with
  | nil => simp [List.dropWhile_cons, hc]
  | cons a t ih =>
      simp only [List.cons_append, List.dropWhile_cons, hl a (by simp), if_pos]
      exact ih fun x hx => hl x (by simp [hx])

theorem dropWhile_id_of_head {p : Char → Bool} {l : List Char} {c : Char}
    (hc : l.head? = some c) (h : ¬ p c) : l.dropWhile p = l := by
  match l, hc with
  | a :: t, hc =>
      have : a = c := by simpa using hc
      subst this
      exact List.dropWhile_cons_of_neg (by simpa using h)

theorem rev_noSlash_true {n : List Char} (h : '/' ∉ n) :
    ∀ a ∈ n.reverse, (fun c => decide (c ≠ '/')) a = true := by
  intro a ha
  simp only [List.mem_reverse] at ha
  simp only [ne_eq, decide_eq_true_eq]
  exact fun he => h (he ▸ ha)

theorem rev_noSlash_false {n : List Char} (h : '/' ∉ n) :
    ∀ a ∈ n.reverse, ¬ ((fun c => decide (c = '/')) a = true) := by
  intro a ha
  simp only [List.mem_reverse] at ha
  simp only [decide_eq_true_eq]
  exact fun he => h (he ▸ ha)

/-- Base of a path whose last segment is a plain name. -/
theorem goBase_goJoin_last {ss : List String} {n : String} (hn1 : n ≠ "")
    (hn2 : '/' ∉ n.data) (hss : ss ≠ []) : goBase (goJoin (ss ++ [n])) = n := by
  have hnd : n.data ≠ [] := fun he => hn1 (by rw [← string_mk_data n, he])
  rw [goJoin_append hss (by simp)]
  show goBase (goJoin ss ++ "/" ++ goJoin [n]) = n
  have hdata : (goJoin ss ++ "/" ++ goJoin [n]).data =
      (goJoin ss).data ++ '/' :: n.data := by
    rw [String.data_append, String.data_append]
    show (goJoin ss).data ++ ['/'] ++ n.data = _
    simp
  have hrev : (goJoin ss ++ "/" ++ goJoin [n]).data.reverse =
      n.data.reverse ++ '/' :: (goJoin ss).data.reverse := by
    rw [hdata]
    simp
  have hdrop : (n.data.reverse ++ '/' :: (goJoin ss).data.reverse).dropWhile
      (fun c => decide (c = '/')) = n.data.reverse ++ '/' :: (goJoin ss).data.reverse := by
    obtain ⟨c0, t0, h0⟩ := List.exists_cons_of_ne_nil (by simpa using hnd :
      n.data.reverse ≠ [])
    rw [h0]
    refine List.dropWhile_cons_of_neg ?_
    exact rev_noSlash_false hn2 c0 (by rw [h0]; simp)
  simp only [goBase]
  rw [if_neg (by
    intro he
    have := congrArg String.data he
    rw [hdata, show ("" : String).data = [] from rfl] at this
    simp at this)]
  rw [hrev, hdrop, List.reverse_reverse,
    takeWhile_append_stop (rev_noSlash_true hn2) (by simp),
    List.reverse_reverse, if_neg hnd, string_mk_data]

/-- Base of a plain name alone. -/
theorem goBase_single {n : String} (hn1 : n ≠ "") (hn2 : '/' ∉ n.data) :
    goBase n = n := by
  have hnd : n.data ≠ [] := fun he => hn1 (by rw [← string_mk_data n, he])
  obtain ⟨c0, t0, h0⟩ := List.exists_cons_of_ne_nil (by simpa using hnd :
    n.data.reverse ≠ [])
  simp only [goBase]
  rw [if_neg hn1]
  rw [dropWhile_id_of_head (c := c0) (by rw [h0]; rfl)
    (rev_noSlash_false hn2 c0 (by rw [h0]; simp))]
  rw [List.reverse_reverse, takeWhile_all (rev_noSlash_true hn2),
    List.reverse_reverse, if_neg hnd, string_mk_data]

/-- Dir of a plain name alone is `.`. -/
theorem goDir_single {n : String} (hn2 : '/' ∉ n.data) : goDir n = "." := by
  simp only [goDir]
  rw [dropWhile_all (rev_noSlash_true hn2)]
  rfl

/-- Dir of a path whose last segment is a plain name drops that segment. -/
theorem goDir_goJoin_last {ds : List String} {n : String} (hds : ds ≠ [])
    (hs : ∀ s ∈ ds, SimpleSeg s) (hn1 : n ≠ "") (hn2 : '/' ∉ n.data) :
    goDir (goJoin (ds ++ [n])) = goJoin ds := by
  rw [goJoin_append hds (by simp)]
  show goDir (goJoin ds ++ "/" ++ goJoin [n]) = goJoin ds
  have hrev : (goJoin ds ++ "/" ++ goJoin [n]).data.reverse =
      n.data.reverse ++ '/' :: (goJoin ds).data.reverse := by
    rw [String.data_append, String.data_append]
    show ((goJoin ds).data ++ ['/'] ++ n.data).reverse = _
    simp
  simp only [goDir]
  rw [hrev, dropWhile_append_stop (rev_noSlash_true hn2) (by simp)]
  rw [show ('/' :: (goJoin ds).data.reverse).reverse = (goJoin ds).data ++ ['/'] by simp]
  rw [show (⟨(goJoin ds).data ++ ['/']⟩ : String) = goJoin ds ++ "/" from by
    rw [← string_mk_data (goJoin ds ++ "/"), String.data_append]]
  exact goClean_goJoin_slash hds hs

theorem goJoin_ne_dot {rs : List String} (h : rs ≠ []) (hs : ∀ s ∈ rs, SimpleSeg s) :
    goJoin rs ≠ "." := by
  match rs with
  | [s] => exact (hs s (by simp)).2.2.1
  | s :: s' :: t =>
      intro he
      have hm : '/' ∈ (goJoin (s :: s' :: t)).data := by
        rw [goJoin_data]
        show '/' ∈ s.data ++ '/' :: joinChars (s'.data :: t.map String.data)
        simp
      rw [he] at hm

      exact absurd (by simpa using hm : '/' = '.') (by decide)

theorem slashed_goJoin {ss : List String} (h : ss ≠ []) (hs : ∀ s ∈ ss, SimpleSeg s) :
    slashed (goJoin ss) = false := by
  obtain ⟨c, hc, hcs⟩ := goJoin_data_head? h hs
  unfold slashed
  rw [hc]
  simpa using hcs

theorem dropCommon_eat {bs : List String} {x : String} (hx : x ≠ "") (xs : List String) :
    dropCommon bs (bs ++ x :: xs) = ([], x :: xs) := by
  induction bs with
  | nil =>
      show dropCommon [] (x :: xs) = _
      rw [dropCommon]
      exact if_neg hx
  | cons b bs ih =>
      show dropCommon (b :: bs) (b :: (bs ++ x :: xs)) = _
      rw [dropCommon, if_pos rfl]
      exact ih

theorem goRel_goJoin {rs xs : List String} (hrs : rs ≠ []) (hxs : xs ≠ [])
    (h1 : ∀ s ∈ rs, SimpleSeg s) (h2 : ∀ s ∈ xs, SimpleSeg s) :
    goRel (goJoin rs) (goJoin (rs ++ xs)) = (goJoin xs, none) := by
  have hall : ∀ s ∈ rs ++ xs, SimpleSeg s := by
    intro s hsm
    rcases List.mem_append.mp hsm with hm | hm
    · exact h1 s hm
    · exact h2 s hm
  have hne2 : rs ++ xs ≠ [] := by simp [hrs]
  have htb : goJoin (rs ++ xs) ≠ goJoin rs := by
    rw [goJoin_append hrs hxs]
    intro he
    have hlen := congrArg (fun s => s.data.length) he
    simp only [String.data_append] at hlen
    simp at hlen
  match xs, hxs with
  | x :: xs', _ =>
  have hx1 : x ≠ "" := (h2 x (by simp)).1
  simp only [goRel]
  rw [goClean_goJoin hrs h1, goClean_goJoin hne2 hall, if_neg htb,
    if_neg (goJoin_ne_dot hrs h1)]
  rw [slashed_goJoin hrs h1, slashed_goJoin hne2 hall]
  rw [if_neg (by simp)]
  rw [goSplit_goJoin hrs (fun s hm => (h1 s hm).2.1),
    goSplit_goJoin hne2 (fun s hm => (hall s hm).2.1)]
  rw [dropCommon_eat hx1 xs']
  dsimp only [goJoin, List.headD]
  rw [if_neg (by decide : ¬ ("" : String) = "..")]
  rw [if_neg (by simp)]

/-- Obfuscating the current-directory marker is hashing it as one
segment. -/
theorem ObfuscatePath_dot : ObfuscatePath "." = HashFolderName "." := rfl

/-- The object key of a file that lies `ds` directories below the root
`rs`, all path segments being plain names: the directory levels are
hashed one by one and the base name is appended unhashed; a file sitting
directly in the root gets the hashed `.` marker as its directory part. -/
theorem UploadFileKey_eq (rs ds : List String) (n : String) (hrs : rs ≠ [])
    (h1 : ∀ s ∈ rs, SimpleSeg s) (h2 : ∀ s ∈ ds, SimpleSeg s) (hn : SimpleSeg n) :
    UploadFileKey (goJoin rs) (goJoin (rs ++ (ds ++ [n]))) =
      (if ds = [] then HashFolderName "." else goJoin (ds.map HashFolderName)) ++
        "/" ++ n := by
  have hall : ∀ s ∈ ds ++ [n], SimpleSeg s := by
    intro s hsm
    rcases List.mem_append.mp hsm with hm | hm
    · exact h2 s hm
    · simp only [List.mem_singleton] at hm
      exact hm ▸ hn
  unfold UploadFileKey
  rw [goRel_goJoin hrs (by simp) h1 hall]
  have hbase : goBase (goJoin (rs ++ (ds ++ [n]))) = n := by
    rw [show rs ++ (ds ++ [n]) = (rs ++ ds) ++ [n] by simp]
    exact goBase_goJoin_last hn.1 hn.2.1 (by simp [hrs])
  rw [hbase]
  match ds with
  | [] =>
      dsimp only [List.nil_append, goJoin]
      rw [goDir_single hn.2.1, ObfuscatePath_dot]
      simp
  | d :: ds' =>
      dsimp only
      rw [goDir_goJoin_last (by simp) h2 hn.1 hn.2.1,
        ObfuscatePath_goJoin (by simp) (fun s hm => (h2 s hm).2.1)]
      simp

/-! ## The walk stops at the first error -/

theorem runUploads_cons_error {u : String → Except String Unit} {f : String} {e : String}
    (h : u f = .error e) (fs : List String) :
    runUploads u (f :: fs) = ([f], .error e) := by
  simp [runUploads, h]

theorem runUploads_cons_ok {u : String → Except String Unit} {f : String}
    (h : u f = .ok ()) (fs : List String) :
    runUploads u (f :: fs) = (f :: (runUploads u fs).1, (runUploads u fs).2) := by
  simp [runUploads, h]

theorem runUploads_append_error {u : String → Except String Unit} {xs : List String}
    {att : List String} {e : String} (h : runUploads u xs = (att, .error e))
    (ys : List String) : runUploads u (xs ++ ys) = (att, .error e) := by
  induction xs generalizing att with
  | nil => simp [runUploads] at h
  | cons f fs ih =>
      match hf : u f with
      | .error e2 =>
          rw [runUploads_cons_error hf] at h
          simp only [Prod.mk.injEq] at h
          show runUploads u (f :: (fs ++ ys)) = _
          rw [runUploads_cons_error hf, ← h.1, ← h.2]
      | .ok v =>
          cases v
          rw [runUploads_cons_ok hf] at h
          match hr : runUploads u fs with
          | (att2, r2) =>
              rw [hr] at h
              simp only [Prod.mk.injEq] at h
              show runUploads u (f :: (fs ++ ys)) = _
              rw [runUploads_cons_ok hf, @ih att2 (by rw [hr, h.2]), ← h.1]

theorem runUploads_append_ok {u : String → Except String Unit} {xs : List String}
    {att : List String} (h : runUploads u xs = (att, .ok ())) (ys : List String) :
    runUploads u (xs ++ ys) = (att ++ (runUploads u ys).1, (runUploads u ys).2) := by
  induction xs generalizing att with
  | nil =>
      simp only [runUploads, Prod.mk.injEq] at h
      rw [List.nil_append, ← h.1]
      simp
  | cons f fs ih =>
      match hf : u f with
      | .error e2 =>
          rw [runUploads_cons_error hf] at h
          simp at h
      | .ok v =>
          cases v
          rw [runUploads_cons_ok hf] at h
          match hr : runUploads u fs with
          | (att2, r2) =>
              rw [hr] at h
              simp only [Prod.mk.injEq] at h
              show runUploads u (f :: (fs ++ ys)) = _
              rw [runUploads_cons_ok hf, @ih att2 (by rw [hr, h.2]), ← h.1]
              simp

theorem runUploads_stops {u : String → Except String Unit} :
    ∀ (files : List String) (i : Nat) (fi e : String),
    (∀ f ∈ files.take i, u f = .ok ()) → files[i]? = some fi → u fi = .error e →
    runUploads u files = (files.take (i + 1), .error e) := by
  intro files
  induction files with
  | nil => intro i fi e _ hi; simp at hi
  | cons f fs ih =>
      intro i fi e hok hi he
      match i with
      | 0 =>
          simp at hi
          rw [runUploads, hi, he]
          simp
      | j + 1 =>
          have hf : u f = .ok () := hok f (by simp)
          rw [runUploads, hf]
          rw [ih j fi e (fun x hx => hok x (by simp [hx])) (by simpa using hi) he]
          simp [List.take_succ_cons]

theorem runUploads_all_ok {u : String → Except String Unit} {files : List String}
    (h : ∀ f ∈ files, u f = .ok ()) : runUploads u files = (files, .ok ()) := by
  induction files with
  | nil => rfl
  | cons f fs ih =>
      rw [runUploads, h f (by simp), ih fun x hx => h x (by simp [hx])]

mutual

theorem walkRun_eq_runUploads (u : String → Except String Unit) (path : String)
    (t : FsNode) : walkRun u (fun _ => none) path t = runUploads u (walkFiles path t) := by
  match t with
  | .file nm =>
      rw [walkRun, walkFiles, runUploads]
      match hu : u path with
      | .error e => rfl
      | .ok v => cases v; rw [runUploads]
  | .dir nm cs =>
      rw [walkRun, walkFiles]
      exact walkRunList_eq_runUploads u path cs

theorem walkRunList_eq_runUploads (u : String → Except String Unit) (path : String)
    (cs : List FsNode) :
    walkRunList u (fun _ => none) path cs = runUploads u (walkFilesList path cs) := by
  match cs with
  | [] => rfl
  | c :: cs' =>
      rw [walkRunList, walkFilesList]
      show (match walkRun u (fun _ => none) (goJoinPath path c.name) c with
            | (att, Except.error e) => (att, Except.error e)
            | (att, Except.ok _) =>
                let r := walkRunList u (fun _ => none) path cs'
                (att ++ r.1, r.2)) = _
      rw [walkRun_eq_runUploads u (goJoinPath path c.name) c,
        walkRunList_eq_runUploads u path cs']
      match hr : runUploads u (walkFiles (goJoinPath path c.name) c) with
      | (att, .error e) => exact (runUploads_append_error hr _).symm
      | (att, .ok v) =>
          cases v
          rw [runUploads_append_ok hr]

end

theorem UploadFolder_stops {u : String → Except String Unit} {root : String}
    {t : FsNode} {i : Nat} {fi e : String}
    (hok : ∀ f ∈ (walkFiles root t).take i, u f = .ok ())
    (hi : (walkFiles root t)[i]? = some fi) (he : u fi = .error e) :
    UploadFolder u (fun _ => none) root t = ((walkFiles root t).take (i + 1), .error e) := by
  show walkRun u (fun _ => none) root t = _
  rw [walkRun_eq_runUploads]
  exact runUploads_stops _ i fi e hok hi he

theorem UploadFolder_no_files {u : String → Except String Unit} {root : String}
    {t : FsNode} (h : walkFiles root t = []) :
    UploadFolder u (fun _ => none) root t = ([], .ok ()) := by
  show walkRun u (fun _ => none) root t = _
  rw [walkRun_eq_runUploads, h]
  rfl

/-! ## Remaining helper lemmas -/

theorem goJoin_cons {ss : List String} (h : ss ≠ []) (s : String) :
    goJoin (s :: ss) = s ++ "/" ++ goJoin ss := by
  match ss with
  | x :: t => rfl

theorem goSplit_slash_cons (p : String) : goSplit ("/" ++ p) = "" :: goSplit p := by
  unfold goSplit
  rw [show ("/" ++ p).data = '/' :: p.data from by rw [String.data_append]; rfl]
  rw [show splitChars ('/' :: p.data) = [] :: splitChars p.data from by
    rw [splitChars]; simp]
  rfl

/-- Whenever goRel reports an error, its string result is empty (the Go
function returns `"", err`). -/
theorem goRel_shape (b t : String) : (goRel b t).2 = none ∨ (goRel b t).1 = "" := by
  unfold goRel
  dsimp only
  split_ifs <;> simp

theorem find?_append_some {l1 l2 : List (String × String)} {p : String × String → Bool}
    {x : String × String} (h : l1.find? p = some x) : (l1 ++ l2).find? p = some x := by
  induction l1 with
  | nil => simp [List.find?] at h
  | cons a t ih =>
      rw [List.cons_append]
      rw [List.find?_cons] at h ⊢
      match hp : p a with
      | true => rw [hp] at h; exact h
      | false => rw [hp] at h; exact ih h

theorem dotenvApply_preserves {env : List (String × String)} {k : String}
    {pr : String × String} (h : env.find? (fun p => p.1 = k) = some pr)
    (kvs : List (String × String)) :
    (dotenvApply env kvs).find? (fun p => p.1 = k) = some pr := by
  unfold dotenvApply
  induction kvs generalizing env with
  | nil => exact h
  | cons kv rest ih =>
      rw [List.foldl_cons]
      split
      · exact ih h
      · exact ih (find?_append_some h)

/-- A run of main with the configuration file present and both variables
already set (non-empty) in the environment: the environment values are the
ones handed to the upload, whatever the file contains. -/
theorem mainModel_run {env : List (String × String)} {b r : String}
    (hb : env.find? (fun p => p.1 = "S3_BUCKET_NAME") = some ("S3_BUCKET_NAME", b))
    (hr : env.find? (fun p => p.1 = "AWS_REGION") = some ("AWS_REGION", r))
    (hbne : b ≠ "") (hrne : r ≠ "") (kvs : List (String × String))
    (a0 folder : String) (rest : List String)
    (up : String → String → String → Except String Unit) :
    mainModel (some kvs) env (a0 :: folder :: rest) up =
      match up b r folder with
      | .error e => .fatal ("Upload failed:" ++ e)
      | .ok _ => .success "All files uploaded successfully!" := by
  simp only [mainModel]
  rw [show getenv (dotenvApply env kvs) "S3_BUCKET_NAME" = b from by
    unfold getenv; rw [dotenvApply_preserves hb kvs]; rfl]
  rw [show getenv (dotenvApply env kvs) "AWS_REGION" = r from by
    unfold getenv; rw [dotenvApply_preserves hr kvs]; rfl]
  rw [if_neg (by simp [hbne, hrne])]

/-! ## The claims -/

/-- C6: a file directly in the root has relative directory portion `.`
(the current-directory marker), and UploadFile joins with `/` exactly as
for any other directory portion: the key is hashSegment(".") ++ "/" ++
base name, where the hashed marker is a fixed non-empty 16-character
segment — the key is never just the base name. -/
theorem claim_C6 (rs : List String) (n : String) (hrs : rs ≠ [])
    (h1 : ∀ s ∈ rs, SimpleSeg s) (hn : SimpleSeg n) :
    UploadFileKey (goJoin rs) (goJoin (rs ++ [n])) =
      HashFolderName "." ++ "/" ++ n ∧
    (HashFolderName ".").length = 16 ∧
    HashFolderName "." ≠ "" ∧
    UploadFileKey (goJoin rs) (goJoin (rs ++ [n])) ≠ n := by
  have hkey : UploadFileKey (goJoin rs) (goJoin (rs ++ [n])) =
      HashFolderName "." ++ "/" ++ n := by
    have h := UploadFileKey_eq rs [] n hrs h1 (by simp) hn
    simpa using h
  refine ⟨hkey, HashFolderName_length ".", HashFolderName_ne_empty ".", ?_⟩
  rw [hkey]
  intro he
  have hlen := congrArg String.length he
  rw [String.length_append, String.length_append, HashFolderName_length,
    show ("/" : String).length = 1 from rfl] at hlen
  omega

/-- C6 witness. -/
theorem claim_C6_witness :
    (["root"] : List String) ≠ [] ∧ SimpleSeg "f.txt" ∧
    UploadFileKey (goJoin ["root"]) (goJoin (["root"] ++ ["f.txt"])) =
      HashFolderName "." ++ "/" ++ "f.txt" :=
  ⟨by decide, by decide,
    (claim_C6 ["root"] "f.txt" (by decide) (by decide) (by decide)).1⟩

/-- C7 counterexample: the configuration file is absent while both
S3_BUCKET_NAME and AWS_REGION are set in the process environment, yet
main dies with the fatal message about the missing .env file instead of
proceeding with the environment values. -/
theorem claim_C7_counterexample :
    getenv [("S3_BUCKET_NAME", "b"), ("AWS_REGION", "r")] "S3_BUCKET_NAME" = "b" ∧
    getenv [("S3_BUCKET_NAME", "b"), ("AWS_REGION", "r")] "AWS_REGION" = "r" ∧
    mainModel none [("S3_BUCKET_NAME", "b"), ("AWS_REGION", "r")] ["prog", "folder"]
        (fun _ _ _ => .ok ()) = .fatal "Error loading .env file" ∧
    mainModel none [("S3_BUCKET_NAME", "b"), ("AWS_REGION", "r")] ["prog", "folder"]
        (fun _ _ _ => .ok ()) ≠ .success "All files uploaded successfully!" := by
  refine ⟨rfl, rfl, rfl, ?_⟩
  intro h
  exact MainResult.noConfusion h

/-- C7 (amended): a missing configuration file is always fatal
("Error loading .env file"), regardless of the environment; only when the
file is present do environment variables take precedence per the loader's
semantics: an already-set variable is never overridden by the file, so
the run proceeds with the environment's bucket and region whatever the
file contains. -/
theorem claim_C7 (env kvs : List (String × String)) (a0 folder : String)
    (rest : List String) (up : String → String → String → Except String Unit)
    (b r : String)
    (hb : env.find? (fun p => p.1 = "S3_BUCKET_NAME") = some ("S3_BUCKET_NAME", b))
    (hr : env.find? (fun p => p.1 = "AWS_REGION") = some ("AWS_REGION", r))
    (hbne : b ≠ "") (hrne : r ≠ "") :
    mainModel none env (a0 :: folder :: rest) up = .fatal "Error loading .env file" ∧
    mainModel (some kvs) env (a0 :: folder :: rest) up =
      (match up b r folder with
       | .error e => .fatal ("Upload failed:" ++ e)
       | .ok _ => .success "All files uploaded successfully!") :=
  ⟨rfl, mainModel_run hb hr hbne hrne kvs a0 folder rest up⟩

/-- C7 witness: the file holds a conflicting bucket value, the
environment wins and the run succeeds. -/
theorem claim_C7_witness :
    ([("S3_BUCKET_NAME", "envbucket"), ("AWS_REGION", "envregion")].find?
      (fun p => p.1 = "S3_BUCKET_NAME") = some ("S3_BUCKET_NAME", "envbucket")) ∧
    mainModel (some [("S3_BUCKET_NAME", "filebucket")])
        [("S3_BUCKET_NAME", "envbucket"), ("AWS_REGION", "envregion")]
        ["prog", "folder"]
        (fun b _ _ => if b = "envbucket" then .ok () else .error "wrong bucket") =
      .success "All files uploaded successfully!" := by
  have h := (claim_C7 [("S3_BUCKET_NAME", "envbucket"), ("AWS_REGION", "envregion")]
    [("S3_BUCKET_NAME", "filebucket")] "prog" "folder" []
    (fun b _ _ => if b = "envbucket" then .ok () else .error "wrong bucket")
    "envbucket" "envregion" (by rfl) (by rfl) (by decide) (by decide)).2
  exact ⟨by rfl, h.trans (by rfl)⟩

/-- C8: over a subtree containing no regular files, UploadFolder attempts
no upload at all (directories are skipped) and succeeds, and main goes on
to print the success message. -/
theorem claim_C8 (u : String → Except String Unit) (root : String) (t : FsNode)
    (env kvs : List (String × String)) (a0 : String) (rest : List String)
    (b r : String) (hnf : walkFiles root t = [])
    (hb : env.find? (fun p => p.1 = "S3_BUCKET_NAME") = some ("S3_BUCKET_NAME", b))
    (hr : env.find? (fun p => p.1 = "AWS_REGION") = some ("AWS_REGION", r))
    (hbne : b ≠ "") (hrne : r ≠ "") :
    UploadFolder u (fun _ => none) root t = ([], .ok ()) ∧
    mainModel (some kvs) env (a0 :: root :: rest)
        (fun _ _ folder => (UploadFolder u (fun _ => none) folder t).2) =
      .success "All files uploaded successfully!" := by
  have h1 : UploadFolder u (fun _ => none) root t = ([], .ok ()) :=
    UploadFolder_no_files hnf
  refine ⟨h1, ?_⟩
  rw [mainModel_run hb hr hbne hrne]
  rw [show (UploadFolder u (fun _ => none) root t).2 = Except.ok () from by rw [h1]]

/-- C8 witness: one empty subdirectory, no files — zero uploads and the
success message. -/
theorem claim_C8_witness :
    walkFiles "root" (.dir "root" [.dir "sub" []]) = [] ∧
    UploadFolder (fun _ => .ok ()) (fun _ => none) "root"
      (.dir "root" [.dir "sub" []]) = ([], .ok ()) ∧
    mainModel (some []) [("S3_BUCKET_NAME", "b"), ("AWS_REGION", "r")]
        ["prog", "root"]
        (fun _ _ folder => (UploadFolder (fun _ => .ok ()) (fun _ => none) folder
          (.dir "root" [.dir "sub" []])).2) =
      .success "All files uploaded successfully!" := by
  have h := claim_C8 (fun _ => .ok ()) "root" (.dir "root" [.dir "sub" []])
    [("S3_BUCKET_NAME", "b"), ("AWS_REGION", "r")] [] "prog" [] "b" "r"
    (by rfl) (by rfl) (by rfl) (by decide) (by decide)
  exact ⟨by rfl, h.1, h.2⟩

/-- C9: the progress line printed before an upload applies ObfuscatePath
to the entire walk path, hashing every segment — the root prefix, the
directories, and the file's own base name — whereas the object key used
for the upload hashes only the root-relative directory portion and keeps
the base name; for any file at least one directory below the root the
printed obfuscated path and the object key are different strings (they
do not even have the same number of segments). -/
theorem claim_C9 (rs ds : List String) (n : String) (hrs : rs ≠ []) (hds : ds ≠ [])
    (h1 : ∀ s ∈ rs, SimpleSeg s) (h2 : ∀ s ∈ ds, SimpleSeg s) (hn : SimpleSeg n) :
    progressLine (goJoin (rs ++ (ds ++ [n]))) =
      "Uploading: " ++ goJoin (rs ++ (ds ++ [n])) ++ " -> " ++
        goJoin ((rs ++ (ds ++ [n])).map HashFolderName) ∧
    ObfuscatePath (goJoin (rs ++ (ds ++ [n]))) ≠
      UploadFileKey (goJoin rs) (goJoin (rs ++ (ds ++ [n]))) := by
  have hallS : ∀ s ∈ rs ++ (ds ++ [n]), SimpleSeg s := by
    intro s hs
    rcases List.mem_append.mp hs with hm | hm
    · exact h1 s hm
    · rcases List.mem_append.mp hm with hm2 | hm2
      · exact h2 s hm2
      · simp only [List.mem_singleton] at hm2
        exact hm2 ▸ hn
  have hallNS : ∀ s ∈ rs ++ (ds ++ [n]), '/' ∉ s.data := fun s hs => (hallS s hs).2.1
  constructor
  · show "Uploading: " ++ _ ++ " -> " ++ ObfuscatePath _ = _
    rw [ObfuscatePath_goJoin (by simp) hallNS]
  · intro heq
    rw [UploadFileKey_eq rs ds n hrs h1 h2 hn, if_neg hds] at heq
    have hjoin : goJoin (ds.map HashFolderName) ++ "/" ++ n =
        goJoin (ds.map HashFolderName ++ [n]) :=
      (@goJoin_append (ds.map HashFolderName) [n]
        (by simp [hds]) (by simp)).symm
    rw [hjoin] at heq
    have hlen := congrArg (fun s => (goSplit s).length) heq
    simp only at hlen
    rw [goSplit_ObfuscatePath, goSplit_goJoin (by simp) hallNS,
      goSplit_goJoin (by simp) (by
        intro x hx
        rcases List.mem_append.mp hx with hx2 | hx2
        · obtain ⟨y, _, rfl⟩ := List.mem_map.mp hx2
          exact HashFolderName_no_slash y
        · simp only [List.mem_singleton] at hx2
          exact hx2 ▸ hn.2.1)] at hlen
    simp only [List.length_map, List.length_append, List.length_cons,
      List.length_nil] at hlen
    have h0 : rs.length = 0 := by omega
    exact hrs (List.length_eq_zero.mp h0)

/-- C9 witness. -/
theorem claim_C9_witness :
    SimpleSeg "f.txt" ∧
    progressLine (goJoin (["r"] ++ (["d"] ++ ["f.txt"]))) =
      "Uploading: " ++ goJoin (["r"] ++ (["d"] ++ ["f.txt"])) ++ " -> " ++
        goJoin ((["r"] ++ (["d"] ++ ["f.txt"])).map HashFolderName) ∧
    ObfuscatePath (goJoin (["r"] ++ (["d"] ++ ["f.txt"]))) ≠
      UploadFileKey (goJoin ["r"]) (goJoin (["r"] ++ (["d"] ++ ["f.txt"]))) := by
  have h := claim_C9 ["r"] ["d"] "f.txt" (by decide)
    (by decide) (by decide) (by decide) (by decide)
  exact ⟨by decide, h.1, h.2⟩

/-- C10: UploadFile discards the error from filepath.Rel: whenever Rel
reports that filePath cannot be made relative to originalFolder, the key
is still computed, from the empty relative path whose directory portion
is ".", giving hashSegment(".") ++ "/" ++ base name instead of a
failure. -/
theorem claim_C10 (originalFolder filePath e : String)
    (h : (goRel originalFolder filePath).2 = some e) :
    UploadFileKey originalFolder filePath =
      HashFolderName "." ++ "/" ++ goBase filePath := by
  have h1 : (goRel originalFolder filePath).1 = "" := by
    rcases goRel_shape originalFolder filePath with h2 | h2
    · rw [h] at h2
      exact absurd h2 (by simp)
    · exact h2
  simp only [UploadFileKey]
  rw [h1, show goDir "" = "." from rfl, ObfuscatePath_dot]

/-- C10 witness: an absolute original folder and a relative file path
make Rel fail, yet a key is produced. -/
theorem claim_C10_witness :
    (goRel "/a" "b").2 = some "Rel: cannot make b relative to /a" ∧
    UploadFileKey "/a" "b" = HashFolderName "." ++ "/" ++ goBase "b" :=
  ⟨by decide, claim_C10 "/a" "b" "Rel: cannot make b relative to /a" (by decide)⟩

/-! ## The claims (continued) -/

/-- C1: for every string s, HashFolderName s is the first 16 characters of
the lowercase hexadecimal encoding of the SHA-256 digest of the UTF-8
bytes of s, and the result is always exactly 16 lowercase hexadecimal
characters.  Determinism is inherent: HashFolderName is a pure function of
its argument alone. -/
theorem claim_C1 (s : String) :
    HashFolderName s = ⟨(hexEncode (sha256Bytes (strBytes s))).take 16⟩ ∧
    (HashFolderName s).length = 16 ∧
    ∀ c ∈ (HashFolderName s).data, isLowerHexChar c :=
  ⟨rfl, HashFolderName_length s, HashFolderName_chars s⟩

/-- C2: ObfuscatePath splits its input on the path separator, hashes every
segment in order with HashFolderName, and joins the results with `/`: it
is literally that composition; on three separator-free segments it yields
hash(a)/hash(b)/hash(c); and a leading separator produces an empty first
segment, which is hashed like any other.  The function is a total pure
Lean function by construction. -/
theorem claim_C2 (p a b c : String) (ha : '/' ∉ a.data) (hb : '/' ∉ b.data)
    (hc : '/' ∉ c.data) :
    ObfuscatePath p = goJoin ((goSplit p).map HashFolderName) ∧
    ObfuscatePath (a ++ "/" ++ b ++ "/" ++ c) =
      HashFolderName a ++ "/" ++ HashFolderName b ++ "/" ++ HashFolderName c ∧
    ObfuscatePath ("/" ++ p) = HashFolderName "" ++ "/" ++ ObfuscatePath p := by
  refine ⟨rfl, ?_, ?_⟩
  · have h3 : a ++ "/" ++ b ++ "/" ++ c = goJoin [a, b, c] := by
      simp [goJoin, String.append_assoc]
    rw [h3, ObfuscatePath_goJoin (by simp) (by
      intro s hs
      simp only [List.mem_cons, List.mem_singleton, List.not_mem_nil, or_false] at hs
      rcases hs with rfl | rfl | rfl
      exacts [ha, hb, hc])]
    simp [goJoin, String.append_assoc]
  · show goJoin ((goSplit ("/" ++ p)).map HashFolderName) = _
    rw [goSplit_slash_cons, List.map_cons,
      goJoin_cons (by simpa using goSplit_ne_nil p)]
    rfl

/-- C2 witness. -/
theorem claim_C2_witness :
    ('/' ∉ ("a" : String).data) ∧
    ObfuscatePath ("a" ++ "/" ++ "b" ++ "/" ++ "c") =
      HashFolderName "a" ++ "/" ++ HashFolderName "b" ++ "/" ++ HashFolderName "c" :=
  ⟨by decide, (claim_C2 "p" "a" "b" "c" (by decide) (by decide) (by decide)).2.1⟩

/-- C3 counterexample: the file `root/f.txt` sits directly in the root,
so its root-relative path `f.txt` has zero directory levels, yet the
object key is not the bare base name: the hashed `.` pseudo-segment is
prefixed. -/
theorem claim_C3_counterexample :
    UploadFileKey "root" "root/f.txt" = HashFolderName "." ++ "/" ++ "f.txt" ∧
    UploadFileKey "root" "root/f.txt" ≠ "f.txt" := by
  constructor
  · decide
  · decide

/-- C3 (amended): for every uploaded file lying at least one directory
below the root — with root, directory and file segments all plain names —
the object key is one 16-character hashed segment per directory level of
the root-relative path, joined with forward slashes, followed by the
original base name unmodified; for root/docs/report.txt this is
hash("docs") ++ "/report.txt".  (A file directly in the root instead gets
the hashed "." marker as its prefix, see C6.) -/
theorem claim_C3 (rs ds : List String) (n : String) (hrs : rs ≠ [])
    (hds : ds ≠ []) (h1 : ∀ s ∈ rs, SimpleSeg s) (h2 : ∀ s ∈ ds, SimpleSeg s)
    (hn : SimpleSeg n) :
    UploadFileKey (goJoin rs) (goJoin (rs ++ (ds ++ [n]))) =
      goJoin (ds.map HashFolderName) ++ "/" ++ n ∧
    ∀ h ∈ ds.map HashFolderName, h.length = 16 := by
  constructor
  · rw [UploadFileKey_eq rs ds n hrs h1 h2 hn, if_neg hds]
  · intro h hm
    obtain ⟨s, _, rfl⟩ := List.mem_map.mp hm
    exact HashFolderName_length s

/-- C3 witness. -/
theorem claim_C3_witness :
    (["root"] : List String) ≠ [] ∧ SimpleSeg "docs" ∧
    UploadFileKey (goJoin ["root"]) (goJoin (["root"] ++ (["docs"] ++ ["report.txt"]))) =
      goJoin (["docs"].map HashFolderName) ++ "/" ++ "report.txt" :=
  ⟨by decide, by decide,
    (claim_C3 ["root"] ["docs"] "report.txt" (by decide)
      (by decide) (by decide) (by decide) (by decide)).1⟩

/-- C4: when every file before position i in the walk's encounter order
uploads fine and the upload of the i-th file fails, UploadFolder returns
exactly that error having attempted precisely the first i+1 files — no
later file is ever attempted; and a traversal (lstat) error on the root
aborts the run with that error before any upload is attempted. -/
theorem claim_C4 (u : String → Except String Unit) (root : String) (t : FsNode)
    (i : Nat) (fi e : String)
    (hok : ∀ f ∈ (walkFiles root t).take i, u f = .ok ())
    (hi : (walkFiles root t)[i]? = some fi) (he : u fi = .error e) :
    UploadFolder u (fun _ => none) root t =
      ((walkFiles root t).take (i + 1), .error e) ∧
    ∀ (stat : String → Option String) (e2 : String), stat root = some e2 →
      UploadFolder u stat root t = ([], .error e2) := by
  refine ⟨UploadFolder_stops hok hi he, ?_⟩
  intro stat e2 hst
  simp [UploadFolder, hst]

/-- C4 witness: three files, authentication error on the second — only the
first two uploads are attempted and the error propagates. -/
theorem claim_C4_witness :
    walkFiles "r" (.dir "r" [.file "a", .file "b", .file "c"]) =
      ["r/a", "r/b", "r/c"] ∧
    UploadFolder (fun p => if p = "r/b" then .error "auth" else .ok ())
        (fun _ => none) "r" (.dir "r" [.file "a", .file "b", .file "c"]) =
      (["r/a", "r/b"], .error "auth") := by
  refine ⟨by rfl, ?_⟩
  have h := (claim_C4 (fun p => if p = "r/b" then .error "auth" else .ok ())
    "r" (.dir "r" [.file "a", .file "b", .file "c"]) 1 "r/b" "auth"
    (by decide) (by rfl) (by rfl)).1
  exact h.trans (by rfl)

/-- C5: the hashed value of a segment is a pure function of the segment
string alone: splitting the obfuscated path recovers exactly the
segment-wise image under HashFolderName, so a segment s occurring at any
position, among any siblings, in any two paths is mapped to the identical
hashed segment. -/
theorem claim_C5 (p : String) (pre1 post1 pre2 post2 : List String) (s : String)
    (h1 : ∀ x ∈ pre1 ++ s :: post1, '/' ∉ x.data)
    (h2 : ∀ x ∈ pre2 ++ s :: post2, '/' ∉ x.data) :
    goSplit (ObfuscatePath p) = (goSplit p).map HashFolderName ∧
    (goSplit (ObfuscatePath (goJoin (pre1 ++ s :: post1))))[pre1.length]? =
      some (HashFolderName s) ∧
    (goSplit (ObfuscatePath (goJoin (pre2 ++ s :: post2))))[pre2.length]? =
      some (HashFolderName s) := by
  have key : ∀ (pre post : List String), (∀ x ∈ pre ++ s :: post, '/' ∉ x.data) →
      (goSplit (ObfuscatePath (goJoin (pre ++ s :: post))))[pre.length]? =
        some (HashFolderName s) := by
    intro pre post hx
    rw [goSplit_ObfuscatePath, goSplit_goJoin (by simp) hx, List.map_append,
      List.getElem?_append_right (by simp)]
    simp
  exact ⟨goSplit_ObfuscatePath p, key pre1 post1 h1, key pre2 post2 h2⟩

/-- C5 witness: the segment "docs" at depth 0 in one path and depth 2 in
another is hashed to the same segment. -/
theorem claim_C5_witness :
    (∀ x ∈ (["y", "z"] : List String) ++ "docs" :: [], '/' ∉ x.data) ∧
    (goSplit (ObfuscatePath (goJoin ([] ++ "docs" :: ["x"]))))[(0 : Nat)]? =
      some (HashFolderName "docs") ∧
    (goSplit (ObfuscatePath (goJoin (["y", "z"] ++ "docs" :: []))))[(2 : Nat)]? =
      some (HashFolderName "docs") := by
  have h := claim_C5 "p" [] ["x"] ["y", "z"] [] "docs" (by decide) (by decide)
  exact ⟨by decide, h.2.1, h.2.2⟩

end SampleObfuscation
